import Mathlib

set_option maxRecDepth 20000

/-!
Shallow embedding of the go-kdl lexer (`package kdl`, the revision with the
full token set): the pushback-capable rune source, the classifiers, the
lexical state machine, and the consumer-visible pull stream.

Runes are modelled as `Int` with `-1` as the Go `eof` sentinel; the input
byte stream is modelled as the list of Unicode scalar values it decodes to.
-/

/-- The EOF sentinel: runes are modelled as `Int` (a Unicode code point),
with `-1` standing for the Go `eof` constant. -/
def eofR : Int := -1

def rune (c : Char) : Int := (c.toNat : Int)

def runes (s : String) : List Int := s.toList.map rune

/-- Effective rune set matched by `strings.IndexRune(spaces, r)`.  The Go
constant embeds a lone `0xA0` byte, which is invalid UTF-8 and therefore is
matched by no rune, so U+00A0 is absent from the effective set. -/
def spaces : List Int :=
  [9, 32, 0x1680, 0x2000, 0x2001, 0x2002, 0x2003, 0x2004, 0x2005, 0x2006,
   0x2007, 0x2008, 0x2009, 0x200A, 0x202F, 0x205F, 0x3000]

/-- Effective rune set of the Go `newline` constant: its lone `0x85` byte is
invalid UTF-8 and never matched by `strings.IndexRune`, so U+0085 is absent. -/
def newline : List Int := [0x0D, 0x0A, 0x0C, 0x2028, 0x2029]

/-- Models `strings.IndexRune(valid, r) >= 0` for the valid-UTF-8 constants
used in this lexer: an invalid rune (in particular the `-1` EOF sentinel) matches
nothing. -/
def runeIn (valid : List Int) (r : Int) : Bool :=
  decide (r ≠ eofR) && valid.contains r

def identifierCharacter (r : Int) : Bool :=
  if r < 0x20 ∨ r > 0x10FFFF then false
  else if runeIn spaces r || runeIn newline r then false
  else if [92, 47, 60, 62, 123, 125, 59, 61, 44, 34].contains r then false
  else true

def digit (r : Int) : Bool := decide (48 ≤ r) && decide (r ≤ 57)

def numberStart (r : Int) : Bool := digit r || r == 43 || r == 45

def identifierStart (r : Int) : Bool := identifierCharacter r && !digit r

/-- Go `string([]rune)` conversion: a rune outside the Unicode scalar value
range is encoded as U+FFFD. -/
def goString (rs : List Int) : List Int :=
  rs.map fun r =>
    if 0 ≤ r ∧ r ≤ 0x10FFFF ∧ ¬(0xD800 ≤ r ∧ r ≤ 0xDFFF) then r else 0xFFFD

inductive tokenType
  | tokEOF
  | tokErr
  | tokInt
  | tokFloat
  | tokNewline
  | tokIgnoreNode
  | tokSpace
  | tokIdentifier
  | tokString
  | tokEqual
  | tokOpenBracket
  | tokCloseBracket
  | tokSemicolon
deriving DecidableEq, Repr

/-- The token record; `err` holds the error format string (the formatted
arguments carry no information the claims depend on and are elided). -/
structure token where
  typ : tokenType
  err : String := ""
  str : List Int := []
deriving DecidableEq, Repr

/-- The lexer session state.  `input` stands for the remaining decoded
runes of the buffered reader; `peekrs` is the pushback stack with its top at the
head (Go keeps the top at the slice end). -/
structure lexer where
  input : List Char
  rs : List Int := []
  peekrs : List Int := []
  atEOF : Bool := false
  lastWasSpace : Bool := false
deriving DecidableEq, Repr

def lexer.next (l : lexer) : Int × lexer :=
  match l.peekrs with
  | p :: ps => (p, { l with peekrs := ps, rs := l.rs ++ [p] })
  | [] =>
    if l.atEOF then (eofR, l)
    else
      match l.input with
      | [] => (eofR, { l with atEOF := true })
      | c :: cs => (rune c, { l with input := cs, rs := l.rs ++ [rune c] })

def lexer.backup (l : lexer) : lexer :=
  if l.atEOF then l
  else if l.rs = [] then l -- Go panics here; `next` always buffers what it returns, so this cannot run
  else { l with peekrs := l.rs.getLastD 0 :: l.peekrs, rs := l.rs.dropLast }

def lexer.peek (l : lexer) : Int × lexer :=
  ((l.next).1, (l.next).2.backup)

def lexer.last (l : lexer) : Int := l.rs.getLastD (-1)

def lexer.ignore (l : lexer) : lexer := { l with rs := [] }

/-- Count of runes still ahead of the read position; every loop in the state
machine consumes at least one rune per iteration, so `meas + 1` bounds its
iteration count and is used as the structural fuel of the loops below. -/
def lexer.meas (l : lexer) : Nat := l.peekrs.length + l.input.length

def lexer.accept (l : lexer) (valid : List Int) : Bool × lexer :=
  if runeIn valid (l.next).1 then (true, (l.next).2)
  else (false, (l.next).2.backup)

def lexer.acceptNewline (l : lexer) : Bool × lexer :=
  let n := l.next
  if n.1 = eofR then (false, n.2)
  else if n.1 = 13 then
    let p := (n.2).peek
    if p.1 = 10 then (true, ((p.2).next).2) else (true, p.2)
  else if runeIn newline n.1 then (true, n.2)
  else (false, n.2)

def acceptRunF (valid : List Int) : Nat → lexer → lexer
  | 0, l => l
  | n + 1, l =>
    if runeIn valid (l.next).1 then acceptRunF valid n (l.next).2
    else (l.next).2.backup

def lexer.acceptRun (l : lexer) (valid : List Int) : lexer :=
  acceptRunF valid (l.meas + 1) l

/-- The body of `until`: the Go condition peeks twice, but a second peek on
the state left by the first returns the same rune and the same state, so a
single peek is an exact model. -/
def untilF (invalid : List Int) : Nat → lexer → lexer
  | 0, l => l
  | n + 1, l =>
    let p := l.peek
    if runeIn invalid p.1 then p.2
    else if p.1 = eofR then p.2
    else untilF invalid n ((p.2).next).2

def lexer.until (l : lexer) (invalid : List Int) : lexer :=
  untilF invalid (l.meas + 1) l

def lexer.emit (l : lexer) (t : token) : List token × lexer :=
  if t.typ = .tokSpace ∧ l.lastWasSpace then ([], l.ignore)
  else ([t], { l with lastWasSpace := decide (t.typ = .tokSpace), rs := [] })

def lexer.err (l : lexer) (msg : String) : List token × lexer :=
  ([{ typ := .tokErr, err := msg }], { l with lastWasSpace := false })

inductive lexState
  | sAny
  | sNumber
  | sIdentifier
  | sString
  | sRawString
  | sComment
  | sSpace
  | sNewline
deriving DecidableEq, Repr

/-- What one invocation of a Go `lexFn` produces: the tokens handed to the
channel, the next state (`none` = the top-level `lex` loop exits), and the
new session state. -/
abbrev stepRes := List token × Option lexState × lexer

def lexAnyF (l : lexer) : stepRes :=
  let p := l.peek
  let r := p.1
  let l1 := p.2
  if r = eofR then ([], none, l1)
  else if numberStart r then ([], some .sNumber, l1)
  else if identifierStart r then ([], some .sIdentifier, l1)
  else if r = 34 then ([], some .sString, l1)
  else if r = 61 then
    let e := ((l1.next).2).emit { typ := .tokEqual }
    (e.1, some .sAny, e.2)
  else if r = 123 then
    let e := ((l1.next).2).emit { typ := .tokOpenBracket }
    (e.1, some .sAny, e.2)
  else if r = 125 then
    let e := ((l1.next).2).emit { typ := .tokCloseBracket }
    (e.1, some .sAny, e.2)
  else if r = 59 then
    let e := ((l1.next).2).emit { typ := .tokSemicolon }
    (e.1, some .sAny, e.2)
  else if r = 47 then ([], some .sComment, l1)
  else if runeIn spaces r then ([], some .sSpace, l1)
  else if runeIn newline r then ([], some .sNewline, l1)
  else
    let e := l1.err "don\x27t know how to lex %q"
    (e.1, none, e.2)

def digitsU : List Int := [48, 49, 50, 51, 52, 53, 54, 55, 56, 57, 95]

def hexU : List Int :=
  [48, 49, 50, 51, 52, 53, 54, 55, 56, 57,
   97, 98, 99, 100, 101, 102, 65, 66, 67, 68, 69, 70, 95]

def binU : List Int := [48, 49, 95]

def octU : List Int := [48, 49, 50, 51, 52, 53, 54, 55, 95]

def lexNumberDecimal (l : lexer) : stepRes :=
  let l1 := l.acceptRun digitsU
  let a2 := l1.accept [46]
  let fl := a2.1
  let l3 := if a2.1 then (a2.2).acceptRun digitsU else a2.2
  let a4 := l3.accept [101, 69]
  let l5 :=
    if a4.1 then
      let a5 := (a4.2).accept [43, 45]
      (a5.2).acceptRun digitsU
    else a4.2
  let t : token :=
    if fl then { typ := .tokFloat, str := goString l5.rs }
    else { typ := .tokInt, str := goString l5.rs }
  let e := l5.emit t
  (e.1, some .sSpace, e.2)

def lexNumberRadix (l : lexer) : stepRes :=
  let a := l.accept [48]
  if a.1 then
    let n := (a.2).next
    if n.1 = eofR then
      let e := (n.2).emit { typ := .tokInt, str := goString (n.2).rs }
      (e.1, none, e.2)
    else if n.1 = 120 then
      let l2 := (n.2).acceptRun hexU
      let e := l2.emit { typ := .tokInt, str := goString l2.rs }
      (e.1, some .sSpace, e.2)
    else if n.1 = 98 then
      let l2 := (n.2).acceptRun binU
      let e := l2.emit { typ := .tokInt, str := goString l2.rs }
      (e.1, some .sSpace, e.2)
    else if n.1 = 111 then
      let l2 := (n.2).acceptRun octU
      let e := l2.emit { typ := .tokInt, str := goString l2.rs }
      (e.1, some .sSpace, e.2)
    else lexNumberDecimal ((n.2).backup)
  else lexNumberDecimal a.2

def lexNumberF (l : lexer) : stepRes :=
  let a := l.accept [43, 45]
  let l1 := a.2
  if l1.last = 43 then
    let p := l1.peek
    if !digit p.1 then ([], some .sIdentifier, p.2)
    else lexNumberRadix p.2
  else lexNumberRadix l1

def identRunF : Nat → lexer → lexer
  | 0, l => l
  | n + 1, l =>
    if identifierCharacter (l.next).1 then identRunF n (l.next).2
    else (l.next).2.backup

def identFinish (l : lexer) : stepRes :=
  let l1 := identRunF (l.meas + 1) l
  let e := l1.emit { typ := .tokIdentifier, str := goString l1.rs }
  (e.1, some .sAny, e.2)

def lexIdentifierF (l : lexer) : stepRes :=
  let a := l.accept [114]
  if a.1 then
    let p := (a.2).peek
    if p.1 = 35 ∨ p.1 = 34 then ([], some .sRawString, p.2)
    else identFinish p.2
  else
    let n := (a.2).next
    if !identifierStart n.1 then
      let e := (n.2).err "unexpected rune %q at start of identifier"
      (e.1, none, e.2)
    else identFinish n.2

/-- Models `l.rs = append(l.rs[:replacePoint], replace)` in `lexString`. -/
def replaceEsc (l : lexer) (replacePoint : Nat) (replace : Int) : lexer :=
  { l with rs := l.rs.take replacePoint ++ [replace] }

/-- The `parseHex` loop of `lexString`.  `i` counts the remaining iterations
of the Go loop `for i := 0; i < 6; i++`, so the first iteration sees `i = 5`
here exactly when Go sees `i == 0`. -/
def parseHex : Nat → Int → lexer → Option String × Int × lexer
  | 0, acc, l => (none, acc, l)
  | i + 1, acc, l =>
    let n := l.next
    let r := n.1
    if 48 ≤ r ∧ r ≤ 57 then parseHex i (acc * 16 + (r - 48)) n.2
    else if 97 ≤ r ∧ r ≤ 102 then parseHex i (acc * 16 + (r - 97 + 10)) n.2
    else if 65 ≤ r ∧ r ≤ 70 then parseHex i (acc * 16 + (r - 65 + 10)) n.2
    else if r = 125 then
      if i = 5 then (some "no hex in \\u escape sequence", acc, n.2)
      else (none, acc, n.2)
    else (some "unexpected hex in \\u escape sequence, got %q", acc, n.2)

def stringLoopF : Nat → lexer → stepRes
  | 0, l => ([], none, l)
  | n + 1, l =>
    let l1 := l.until [34, 92]
    let m := l1.next
    let r := m.1
    let l2 := m.2
    if r = eofR then
      let e := l2.err "EOF during string"
      (e.1, none, e.2)
    else if r = 34 then
      let e := l2.emit { typ := .tokString, str := goString ((l2.rs.drop 1).dropLast) }
      (e.1, some .sAny, e.2)
    else if r = 92 then
      let rp := l2.rs.length - 1
      let m2 := l2.next
      let r2 := m2.1
      let l3 := m2.2
      if r2 = 110 then stringLoopF n (replaceEsc l3 rp 10)
      else if r2 = 114 then stringLoopF n (replaceEsc l3 rp 13)
      else if r2 = 116 then stringLoopF n (replaceEsc l3 rp 9)
      else if r2 = 92 then stringLoopF n (replaceEsc l3 rp 92)
      else if r2 = 47 then stringLoopF n (replaceEsc l3 rp 47)
      else if r2 = 34 then stringLoopF n (replaceEsc l3 rp 34)
      else if r2 = 98 then stringLoopF n (replaceEsc l3 rp 8)
      else if r2 = 102 then stringLoopF n (replaceEsc l3 rp 12)
      else if r2 = 117 then
        let m3 := l3.next
        if m3.1 ≠ 123 then
          let e := (m3.2).err "expected open bracket after \\u, got %q"
          (e.1, none, e.2)
        else
          let ph := parseHex 6 0 m3.2
          match ph.1 with
          | some msg =>
            let e := (ph.2.2).err msg
            (e.1, none, e.2)
          | none => stringLoopF n (replaceEsc ph.2.2 rp ph.2.1)
      else
        let e := l3.err "unknown escape sequence \\%s"
        (e.1, none, e.2)
    else stringLoopF n l2

def lexStringF (l : lexer) : stepRes :=
  let a := l.accept [34]
  stringLoopF ((a.2).meas + 1) a.2

def hashCountF : Nat → lexer → Nat × lexer
  | 0, l => (0, l)
  | n + 1, l =>
    let m := l.next
    if m.1 = 35 then
      let h := hashCountF n m.2
      (h.1 + 1, h.2)
    else (0, m.2)

def acceptHashes : Nat → lexer → Bool × lexer
  | 0, l => (true, l)
  | k + 1, l =>
    let a := l.accept [35]
    if a.1 then acceptHashes k a.2 else (false, a.2)

def rawFindEndF (hashes : Nat) : Nat → lexer → stepRes
  | 0, l => ([], none, l)
  | n + 1, l =>
    let l1 := l.until [34]
    let m := l1.next
    if m.1 ≠ 34 then
      let e := (m.2).err "expected dquote, got %q"
      (e.1, none, e.2)
    else
      let a := acceptHashes hashes m.2
      if a.1 then
        let interior := ((a.2).rs.take ((a.2).rs.length - hashes - 1)).drop (hashes + 2)
        let e := (a.2).emit { typ := .tokString, str := goString interior }
        (e.1, some .sAny, e.2)
      else rawFindEndF hashes n a.2

def lexRawStringF (l : lexer) : stepRes :=
  let h := hashCountF (l.meas + 1) l
  if (h.2).last ≠ 34 then
    let e := (h.2).err "expected dquote, got %q"
    (e.1, none, e.2)
  else rawFindEndF h.1 ((h.2).meas + 1) h.2

def commentLoopF : Nat → Nat → lexer → Option String × lexer
  | _, 0, l => (none, l)
  | 0, _ + 1, l => (none, l) -- fuel exhausted: unreachable under the meas + 1 budget
  | n + 1, depth + 1, l =>
    let l1 := l.until [42, 47]
    let m := l1.next
    let r := m.1
    let l2 := m.2
    if r = eofR then (some "EOF during multiline comment", l2)
    else if r = 42 then
      let p := l2.peek
      if p.1 ≠ 47 then commentLoopF n (depth + 1) p.2
      else commentLoopF n depth (((p.2).next).2)
    else if r = 47 then
      let p := l2.peek
      if p.1 ≠ 42 then commentLoopF n (depth + 1) p.2
      else commentLoopF n (depth + 2) (((p.2).next).2)
    else commentLoopF n (depth + 1) l2

def lexCommentF (l : lexer) : stepRes :=
  let m1 := l.next
  if m1.1 ≠ 47 then ([], none, m1.2) -- Go panics: this state is entered only on a '/' lookahead
  else
    let m2 := (m1.2).next
    let r := m2.1
    let l2 := m2.2
    if r = 47 then
      let l3 := l2.until newline
      let l4 := l3.ignore
      if l4.atEOF then ([], none, l4)
      else ([], some .sNewline, l4)
    else if r = 42 then
      let c := commentLoopF (l2.meas + 1) 1 l2
      match c.1 with
      | some msg =>
        let e := (c.2).err msg
        (e.1, none, e.2)
      | none => ([], some .sSpace, (c.2).ignore)
    else if r = 45 then
      let e := l2.emit { typ := .tokIgnoreNode }
      (e.1, some .sSpace, e.2)
    else
      let e := l2.err "unknown kind of comment \"/%s\""
      (e.1, none, e.2)

def lexSpaceCont (l : lexer) : stepRes :=
  let a := l.acceptNewline
  if !a.1 then
    let e := (a.2).err "unexpected rune %q in newline continuation"
    (e.1, none, e.2)
  else ([], some .sSpace, a.2)

def lexSpaceF (l : lexer) : stepRes :=
  let a := l.accept spaces
  if !a.1 then ([], some .sAny, a.2)
  else
    let l1 := (a.2).acceptRun spaces
    let p := l1.peek
    if p.1 = eofR then
      let e := (p.2).emit { typ := .tokSpace }
      (e.1, none, e.2)
    else if p.1 = 92 then
      let l2 := ((p.2).next).2
      let l3 := l2.acceptRun spaces
      let p2 := l3.peek
      if p2.1 = 47 then
        let l4 := ((p2.2).next).2
        let p3 := l4.peek
        if p3.1 ≠ 47 then
          let e := (p3.2).err "unexpected rune %q in newline continuation"
          (e.1, none, e.2)
        else lexSpaceCont ((p3.2).until newline)
      else lexSpaceCont p2.2
    else
      let e := (p.2).emit { typ := .tokSpace }
      (e.1, some .sAny, e.2)

def lexNewlineF (l : lexer) : stepRes :=
  let a := l.acceptNewline
  if !a.1 then
    -- the Go code calls err here WITHOUT an early return and still emits Newline after it
    let e1 := (a.2).err "tried to lex newline when not at newline"
    let e2 := ((e1.2)).emit { typ := .tokNewline }
    (e1.1 ++ e2.1, some .sAny, e2.2)
  else
    let e := (a.2).emit { typ := .tokNewline }
    (e.1, some .sAny, e.2)

def step (st : lexState) (l : lexer) : stepRes :=
  match st with
  | .sAny => lexAnyF l
  | .sNumber => lexNumberF l
  | .sIdentifier => lexIdentifierF l
  | .sString => lexStringF l
  | .sRawString => lexRawStringF l
  | .sComment => lexCommentF l
  | .sSpace => lexSpaceF l
  | .sNewline => lexNewlineF l

/-- The top-level `lex` driver, with explicit fuel for the state-to-state
loop (each dispatch of a `lexFn` costs one unit). -/
def run : Nat → lexState → lexer → List token
  | 0, _, _ => []
  | n + 1, st, l =>
    let s := step st l
    match s.2.1 with
    | none => s.1
    | some st2 => s.1 ++ run n st2 s.2.2

def initLexer (s : List Char) : lexer := { input := s }

def lexTokens (fuel : Nat) (s : List Char) : List token :=
  run fuel .sAny (initLexer s)

/-- The consumer-visible `Next()` stream: the emitted tokens in order and,
once the producer has exited and the channel is closed, the zero token
(`typ = tokEOF`) forever. -/
def pull (fuel : Nat) (s : List Char) (n : Nat) : token :=
  (lexTokens fuel s).getD n { typ := .tokEOF }

/-!
Reachable-state well-formedness: once `atEOF` flips, `backup` is a no-op, so
nothing is ever pushed back after it; and every buffered rune is a real code
point (non-negative), since buffered runes come from the input or from a
resolved escape.
-/

def WF (l : lexer) : Prop :=
  (l.atEOF = true → l.peekrs = []) ∧ (∀ r ∈ l.rs, 0 ≤ r) ∧ (∀ r ∈ l.peekrs, 0 ≤ r)

/-- States `l` to `l'` related by token-silent operations: well-formedness is
preserved and the space-coalescing flag is untouched. -/
def Keeps (l l' : lexer) : Prop :=
  (WF l → WF l') ∧ l'.lastWasSpace = l.lastWasSpace

theorem keeps_refl (l : lexer) : Keeps l l := ⟨id, rfl⟩

theorem keeps_trans {a b c : lexer} (h1 : Keeps a b) (h2 : Keeps b c) : Keeps a c :=
  ⟨fun w => h2.1 (h1.1 w), h2.2.trans h1.2⟩

/-- The rune a `next` call would return: the value of one-scalar lookahead. -/
def nv (l : lexer) : Int := (l.next).1

theorem next_keeps (l : lexer) : Keeps l (l.next).2 := by
  unfold Keeps WF lexer.next
  rcases l with ⟨inp, rs, pk, ae, lw⟩
  cases pk with
  | cons p ps =>
    refine ⟨fun w => ?_, rfl⟩
    obtain ⟨h1, h2, h3⟩ := w
    refine ⟨fun hae => ?_, ?_, fun r hr => h3 r (List.mem_cons_of_mem _ hr)⟩
    · exact absurd (h1 hae) (by simp)
    · intro r hr
      rcases List.mem_append.1 hr with h | h
      · exact h2 r h
      · simp only [List.mem_singleton] at h
        exact h ▸ h3 p (List.mem_cons_self _ _)
  | nil =>
    cases ae with
    | true => exact ⟨id, rfl⟩
    | false =>
      cases inp with
      | nil =>
        refine ⟨fun w => ?_, rfl⟩
        obtain ⟨h1, h2, h3⟩ := w
        exact ⟨fun _ => rfl, h2, h3⟩
      | cons c cs =>
        refine ⟨fun w => ?_, rfl⟩
        obtain ⟨h1, h2, h3⟩ := w
        refine ⟨fun hae => by simp at hae, ?_, h3⟩
        intro r hr
        rcases List.mem_append.1 hr with h | h
        · exact h2 r h
        · simp only [List.mem_singleton] at h
          subst h
          exact Int.ofNat_nonneg _

theorem backup_keeps (l : lexer) : Keeps l l.backup := by
  unfold Keeps WF lexer.backup
  rcases l with ⟨inp, rs, pk, ae, lw⟩
  cases ae with
  | true => exact ⟨id, rfl⟩
  | false =>
    cases rs with
    | nil => exact ⟨id, rfl⟩
    | cons a as =>
      refine ⟨fun w => ?_, rfl⟩
      obtain ⟨h1, h2, h3⟩ := w
      refine ⟨fun hae => by simp at hae, ?_, ?_⟩
      · intro r hr
        exact h2 r (List.dropLast_subset _ hr)
      · intro r hr
        rcases List.mem_cons.1 hr with h | h
        · subst h
          rw [show (a :: as).getLastD 0 = as.getLastD a from List.getLastD_cons 0 a as]
          exact h2 _ (List.getLastD_mem_cons _ _)
        · exact h3 r h

theorem peek_keeps (l : lexer) : Keeps l (l.peek).2 :=
  keeps_trans (next_keeps l) (backup_keeps _)

theorem ignore_keeps (l : lexer) : Keeps l l.ignore := by
  unfold Keeps WF lexer.ignore
  exact ⟨fun w => ⟨w.1, by simp, w.2.2⟩, rfl⟩

theorem accept_keeps (l : lexer) (v : List Int) : Keeps l (l.accept v).2 := by
  unfold lexer.accept
  split
  · exact next_keeps l
  · exact keeps_trans (next_keeps l) (backup_keeps _)

theorem acceptNewline_keeps (l : lexer) : Keeps l (l.acceptNewline).2 := by
  unfold lexer.acceptNewline
  simp only []
  split
  · exact next_keeps l
  · split
    · split
      · exact keeps_trans (next_keeps l)
          (keeps_trans (peek_keeps _) (next_keeps _))
      · exact keeps_trans (next_keeps l) (peek_keeps _)
    · split
      · exact next_keeps l
      · exact next_keeps l

theorem acceptRunF_keeps (v : List Int) : ∀ n l, Keeps l (acceptRunF v n l)
  | 0, l => keeps_refl l
  | n + 1, l => by
    unfold acceptRunF
    split
    · exact keeps_trans (next_keeps l) (acceptRunF_keeps v n _)
    · exact keeps_trans (next_keeps l) (backup_keeps _)

theorem acceptRun_keeps (l : lexer) (v : List Int) : Keeps l (l.acceptRun v) :=
  acceptRunF_keeps v _ l

theorem untilF_keeps (v : List Int) : ∀ n l, Keeps l (untilF v n l)
  | 0, l => keeps_refl l
  | n + 1, l => by
    unfold untilF
    simp only []
    split
    · exact peek_keeps l
    · split
      · exact peek_keeps l
      · exact keeps_trans (peek_keeps l)
          (keeps_trans (next_keeps _) (untilF_keeps v n _))

theorem until_keeps (l : lexer) (v : List Int) : Keeps l (l.until v) :=
  untilF_keeps v _ l

theorem identRunF_keeps : ∀ n l, Keeps l (identRunF n l)
  | 0, l => keeps_refl l
  | n + 1, l => by
    unfold identRunF
    split
    · exact keeps_trans (next_keeps l) (identRunF_keeps n _)
    · exact keeps_trans (next_keeps l) (backup_keeps _)

theorem hashCountF_keeps : ∀ n l, Keeps l (hashCountF n l).2
  | 0, l => keeps_refl l
  | n + 1, l => by
    unfold hashCountF
    simp only []
    split
    · exact keeps_trans (next_keeps l) (hashCountF_keeps n _)
    · exact next_keeps l

theorem acceptHashes_keeps : ∀ n l, Keeps l (acceptHashes n l).2
  | 0, l => keeps_refl l
  | n + 1, l => by
    unfold acceptHashes
    simp only []
    split
    · exact keeps_trans (accept_keeps l _) (acceptHashes_keeps n _)
    · exact accept_keeps l _

theorem parseHex_keeps : ∀ i acc l, Keeps l (parseHex i acc l).2.2
  | 0, _, l => keeps_refl l
  | i + 1, acc, l => by
    unfold parseHex
    simp only []
    split
    · exact keeps_trans (next_keeps l) (parseHex_keeps i _ _)
    · split
      · exact keeps_trans (next_keeps l) (parseHex_keeps i _ _)
      · split
        · exact keeps_trans (next_keeps l) (parseHex_keeps i _ _)
        · split
          · split
            · exact next_keeps l
            · exact next_keeps l
          · exact next_keeps l

theorem parseHex_nonneg : ∀ i acc l, 0 ≤ acc → 0 ≤ (parseHex i acc l).2.1
  | 0, _, _, h => h
  | i + 1, acc, l, h => by
    have hd : ∀ d : Int, 0 ≤ d → 0 ≤ acc * 16 + d := fun d hdn =>
      add_nonneg (mul_nonneg h (by norm_num)) hdn
    unfold parseHex
    simp only []
    split_ifs with h1 h2 h3 h4 h5
    · exact parseHex_nonneg i _ _ (hd _ (by omega))
    · exact parseHex_nonneg i _ _ (hd _ (by omega))
    · exact parseHex_nonneg i _ _ (hd _ (by omega))
    · exact h
    · exact h
    · exact h

theorem replaceEsc_keeps (l : lexer) (p : Nat) (rep : Int) (h : 0 ≤ rep) :
    Keeps l (replaceEsc l p rep) := by
  unfold Keeps WF replaceEsc
  refine ⟨fun w => ⟨w.1, ?_, w.2.2⟩, rfl⟩
  intro r hr
  rcases List.mem_append.1 hr with hx | hx
  · exact w.2.1 r (List.take_subset _ _ hx)
  · simp only [List.mem_singleton] at hx
    exact hx ▸ h

theorem commentLoopF_keeps : ∀ n d l, Keeps l (commentLoopF n d l).2 := by
  intro n
  induction n with
  | zero =>
    intro d l
    cases d with
    | zero => exact keeps_refl l
    | succ d => exact keeps_refl l
  | succ n ih =>
    intro d l
    cases d with
    | zero => exact keeps_refl l
    | succ d =>
      unfold commentLoopF
      simp only []
      have hu : Keeps l ((l.until [42, 47]).next).2 :=
        keeps_trans (until_keeps l _) (next_keeps _)
      split
      · exact hu
      · split
        · split
          · exact keeps_trans hu (keeps_trans (peek_keeps _) (ih _ _))
          · exact keeps_trans hu
              (keeps_trans (peek_keeps _) (keeps_trans (next_keeps _) (ih _ _)))
        · split
          · split
            · exact keeps_trans hu (keeps_trans (peek_keeps _) (ih _ _))
            · exact keeps_trans hu
                (keeps_trans (peek_keeps _) (keeps_trans (next_keeps _) (ih _ _)))
          · exact keeps_trans hu (ih _ _)

/-!
Measure and lookahead bookkeeping: `next` strictly shortens the pending
stream when it returns a real rune, `peek` never lengthens it, and on a
well-formed state a `peek` tells the truth about the following `next`.
-/

theorem next_meas_lt : ∀ l : lexer, (l.next).1 ≠ eofR → (l.next).2.meas < l.meas := by
  intro l h
  rcases l with ⟨inp, rs, pk, ae, lw⟩
  cases pk with
  | cons p ps => simp [lexer.next, lexer.meas]
  | nil =>
    cases ae with
    | true => exact absurd rfl h
    | false =>
      cases inp with
      | nil => exact absurd rfl h
      | cons c cs => simp [lexer.next, lexer.meas]

theorem backup_atEOF (l : lexer) : (l.backup).atEOF = l.atEOF := by
  unfold lexer.backup
  split
  · rfl
  · split
    · rfl
    · rfl

theorem ignore_atEOF (l : lexer) : (l.ignore).atEOF = l.atEOF := rfl

theorem peek_meas_le : ∀ l : lexer, (l.peek).2.meas ≤ l.meas := by
  intro l
  rcases l with ⟨inp, rs, pk, ae, lw⟩
  cases pk <;> cases ae <;> cases inp <;>
    simp [lexer.peek, lexer.next, lexer.backup, lexer.meas] <;> omega

/-- The rune a peek reports is exactly what the following `next` returns
(on a well-formed state). -/
theorem peek_next_fst : ∀ l : lexer, WF l → ((l.peek).2.next).1 = (l.peek).1 := by
  intro l w
  rcases l with ⟨inp, rs, pk, ae, lw⟩
  cases pk with
  | cons p ps =>
    have hae : ae = false := by
      cases ae with
      | false => rfl
      | true => exact absurd (w.1 rfl) (by simp)
    subst hae
    simp [lexer.peek, lexer.next, lexer.backup]
  | nil =>
    cases ae with
    | true => simp [lexer.peek, lexer.next, lexer.backup]
    | false =>
      cases inp with
      | nil => simp [lexer.peek, lexer.next, lexer.backup]
      | cons c cs => simp [lexer.peek, lexer.next, lexer.backup]

/-- On a well-formed state, a `next` that reports EOF has set the sticky
at-end flag. -/
theorem next_eof_atEOF : ∀ l : lexer, WF l → (l.next).1 = eofR → (l.next).2.atEOF = true := by
  intro l w h
  rcases l with ⟨inp, rs, pk, ae, lw⟩
  cases pk with
  | cons p ps =>
    have hp : (0 : Int) ≤ p := w.2.2 p (List.mem_cons_self _ _)
    have : (lexer.next ⟨inp, rs, p :: ps, ae, lw⟩).1 = p := rfl
    rw [this] at h
    exact absurd h (by intro hh; rw [hh] at hp; exact absurd hp (by norm_num [eofR]))
  | nil =>
    cases ae with
    | true => rfl
    | false =>
      cases inp with
      | nil => rfl
      | cons c cs =>
        have : (lexer.next ⟨c :: cs, rs, [], false, lw⟩).1 = rune c := rfl
        rw [this] at h
        have : (0 : Int) ≤ rune c := Int.ofNat_nonneg _
        rw [h] at this
        exact absurd this (by norm_num [eofR])

theorem nv_peek (l : lexer) (w : WF l) : nv (l.peek).2 = nv l :=
  peek_next_fst l w

theorem nv_ignore : ∀ l : lexer, nv (l.ignore) = nv l := by
  intro l
  rcases l with ⟨inp, rs, pk, ae, lw⟩
  cases pk with
  | cons p ps => rfl
  | nil =>
    cases ae with
    | true => rfl
    | false =>
      cases inp with
      | nil => rfl
      | cons c cs => rfl

/-- Postcondition of the `until` loop: it stops with the next rune a member
of the stop set, or at end-of-input with the sticky flag set. -/
theorem untilF_post (v : List Int) : ∀ n l, WF l → l.meas < n →
    runeIn v (nv (untilF v n l)) = true ∨ (untilF v n l).atEOF = true := by
  intro n
  induction n with
  | zero => intro l _ h; omega
  | succ n ih =>
    intro l w h
    unfold untilF
    simp only []
    split
    · left
      rw [show nv (l.peek).2 = (l.peek).1 from peek_next_fst l w]
      assumption
    · split
      · right
        show ((l.next).2.backup).atEOF = true
        rw [backup_atEOF]
        exact next_eof_atEOF l w (by assumption)
      · have w1 : WF ((l.peek).2.next).2 :=
          ((keeps_trans (peek_keeps l) (next_keeps _)).1) w
        have hne : ((l.peek).2.next).1 ≠ eofR := by
          rw [peek_next_fst l w]
          assumption
        have hm : ((l.peek).2.next).2.meas < n := by
          have h1 := next_meas_lt (l.peek).2 hne
          have h2 := peek_meas_le l
          omega
        exact ih _ w1 hm

theorem until_post (l : lexer) (v : List Int) (w : WF l) :
    runeIn v (nv (l.until v)) = true ∨ (l.until v).atEOF = true :=
  untilF_post v (l.meas + 1) l w (Nat.lt_succ_self _)

/-- A pending newline rune guarantees `acceptNewline` succeeds. -/
def newlineReady (l : lexer) : Prop := (l.acceptNewline).1 = true

theorem acceptNewline_of_nv (l : lexer) (h : runeIn newline (nv l) = true) :
    newlineReady l := by
  have hne : (l.next).1 ≠ eofR := by
    unfold nv at h
    unfold runeIn at h
    intro hh
    rw [hh] at h
    simp at h
  unfold newlineReady lexer.acceptNewline
  simp only []
  split_ifs with h1 h2 h3 h4
  · exact absurd h1 hne
  · rfl
  · rfl
  · rfl
  · exact absurd h h4

/-!
Predicates on the delivered token stream, and the specification of a single
producer step.
-/

def errFree (o : List token) : Prop := ∀ t ∈ o, t.typ ≠ .tokErr

def noEOFout (o : List token) : Prop := ∀ t ∈ o, t.typ ≠ .tokEOF

/-- An Error token is only ever the last delivered token. -/
def errLastOnly : List token → Prop
  | [] => True
  | t :: ts => (t.typ = .tokErr → ts = []) ∧ errLastOnly ts

/-- No Space token directly follows a Space token, starting from a flag
saying whether the token delivered just before this list was a Space. -/
def noAdjFrom : Bool → List token → Prop
  | _, [] => True
  | b, t :: ts => (b = true → t.typ ≠ .tokSpace) ∧ noAdjFrom (decide (t.typ = .tokSpace)) ts

/-- The last-token-was-space flag after delivering `o` on top of flag `b`. -/
def chainFlag : Bool → List token → Bool
  | b, [] => b
  | _, t :: ts => chainFlag (decide (t.typ = .tokSpace)) ts

theorem errLastOnly_append {o o' : List token} (h : errFree o) (h' : errLastOnly o') :
    errLastOnly (o ++ o') := by
  induction o with
  | nil => simpa using h'
  | cons t ts ih =>
    refine ⟨fun he => absurd he (h t (List.mem_cons_self _ _)), ?_⟩
    exact ih fun x hx => h x (List.mem_cons_of_mem _ hx)

theorem noAdjFrom_append {b : Bool} {o o' : List token}
    (h : noAdjFrom b o) (h' : noAdjFrom (chainFlag b o) o') : noAdjFrom b (o ++ o') := by
  induction o generalizing b with
  | nil => simpa using h'
  | cons t ts ih => exact ⟨h.1, ih h.2 h'⟩

theorem noEOFout_append {o o' : List token} (h : noEOFout o) (h' : noEOFout o') :
    noEOFout (o ++ o') := fun t ht => (List.mem_append.1 ht).elim (h t) (h' t)

/-- Specification of one producer step starting from session state `l`. -/
def stepOK (l : lexer) (s : stepRes) : Prop :=
  noAdjFrom l.lastWasSpace s.1 ∧ noEOFout s.1 ∧
  (match s.2.1 with
   | some st2 =>
       errFree s.1 ∧ (s.2.2).lastWasSpace = chainFlag l.lastWasSpace s.1 ∧
       (WF l → WF s.2.2) ∧ (st2 = .sNewline → newlineReady s.2.2)
   | none => errLastOnly s.1)

theorem stepOK_halt_silent (l l' : lexer) : stepOK l ([], none, l') :=
  ⟨trivial, fun t ht => absurd ht (List.not_mem_nil t), trivial⟩

theorem stepOK_err (l l' : lexer) (msg : String) :
    stepOK l ((l'.err msg).1, none, (l'.err msg).2) := by
  unfold lexer.err stepOK
  refine ⟨⟨fun _ => by simp, trivial⟩, ?_, ⟨fun _ => rfl, trivial⟩⟩
  intro t ht
  simp only [List.mem_singleton] at ht
  subst ht
  simp

theorem stepOK_silent {l l' : lexer} (st : lexState) (k : Keeps l l')
    (hN : st = .sNewline → newlineReady l') : stepOK l ([], some st, l') := by
  refine ⟨trivial, fun t ht => absurd ht (List.not_mem_nil t),
    fun t ht => absurd ht (List.not_mem_nil t), k.2, k.1, hN⟩

theorem stepOK_emit {l l' : lexer} (st : lexState) (t : token) (k : Keeps l l')
    (he : t.typ ≠ .tokErr) (hn : t.typ ≠ .tokEOF) (hs : st ≠ .sNewline) :
    stepOK l ((l'.emit t).1, some st, (l'.emit t).2) := by
  unfold stepOK lexer.emit
  split_ifs with h
  · refine ⟨trivial, fun x hx => absurd hx (List.not_mem_nil x),
      fun x hx => absurd hx (List.not_mem_nil x), k.2, ?_, fun hh => absurd hh hs⟩
    exact fun w => (keeps_trans k (ignore_keeps l')).1 w
  · refine ⟨⟨?_, trivial⟩, ?_, ?_, rfl, ?_, fun hh => absurd hh hs⟩
    · intro hb hts
      exact h ⟨hts, by rw [k.2]; exact hb⟩
    · intro x hx
      simp only [List.mem_singleton] at hx
      subst hx
      exact hn
    · intro x hx
      simp only [List.mem_singleton] at hx
      subst hx
      exact he
    · intro w
      have w' := k.1 w
      exact ⟨w'.1, fun r hr => absurd hr (List.not_mem_nil r), w'.2.2⟩

theorem stepOK_halt_emit {l l' : lexer} (t : token) (k : Keeps l l')
    (he : t.typ ≠ .tokErr) (hn : t.typ ≠ .tokEOF) :
    stepOK l ((l'.emit t).1, none, (l'.emit t).2) := by
  unfold stepOK lexer.emit
  split_ifs with h
  · exact ⟨trivial, fun x hx => absurd hx (List.not_mem_nil x), trivial⟩
  · refine ⟨⟨?_, trivial⟩, ?_, ⟨fun _ => rfl, trivial⟩⟩
    · intro hb hts
      exact h ⟨hts, by rw [k.2]; exact hb⟩
    · intro x hx
      simp only [List.mem_singleton] at hx
      subst hx
      exact hn

/-- A step specification transports backwards along token-silent evolution. -/
theorem stepOK_of_keeps {l l' : lexer} {s : stepRes} (k : Keeps l l') (h : stepOK l' s) :
    stepOK l s := by
  obtain ⟨o, nx, l2⟩ := s
  obtain ⟨h1, h2, h3⟩ := h
  rw [k.2] at h1
  refine ⟨h1, h2, ?_⟩
  cases nx with
  | none => exact h3
  | some st2 =>
    obtain ⟨ef, fl, wf, nr⟩ := h3
    exact ⟨ef, by rw [fl, k.2], fun w => wf (k.1 w), nr⟩

/-! Per-state step specifications. -/

/-- Case split for a branch of a state function. -/
theorem stepOK_ite (l : lexer) (c : Prop) [Decidable c] (A B : stepRes)
    (hA : c → stepOK l A) (hB : ¬c → stepOK l B) : stepOK l (if c then A else B) := by
  by_cases h : c
  · rw [if_pos h]
    exact hA h
  · rw [if_neg h]
    exact hB h

set_option maxHeartbeats 1000000 in
theorem lexAnyOK (l : lexer) (w : WF l) : stepOK l (lexAnyF l) := by
  unfold lexAnyF
  simp only []
  repeat' refine stepOK_ite _ _ _ _ (fun hc => ?_) (fun hc => ?_)
  · exact stepOK_halt_silent l _
  · exact stepOK_silent _ (peek_keeps l) fun hh => nomatch hh
  · exact stepOK_silent _ (peek_keeps l) fun hh => nomatch hh
  · exact stepOK_silent _ (peek_keeps l) fun hh => nomatch hh
  · exact stepOK_emit _ _ (keeps_trans (peek_keeps l) (next_keeps _))
      (by decide) (by decide) (by decide)
  · exact stepOK_emit _ _ (keeps_trans (peek_keeps l) (next_keeps _))
      (by decide) (by decide) (by decide)
  · exact stepOK_emit _ _ (keeps_trans (peek_keeps l) (next_keeps _))
      (by decide) (by decide) (by decide)
  · exact stepOK_emit _ _ (keeps_trans (peek_keeps l) (next_keeps _))
      (by decide) (by decide) (by decide)
  · exact stepOK_silent _ (peek_keeps l) fun hh => nomatch hh
  · exact stepOK_silent _ (peek_keeps l) fun hh => nomatch hh
  · refine stepOK_silent _ (peek_keeps l) fun _ => acceptNewline_of_nv _ ?_
    rw [nv_peek l w]
    exact hc
  · exact stepOK_err l _ _

theorem lexNewlineOK (l : lexer) (hr : newlineReady l) : stepOK l (lexNewlineF l) := by
  unfold lexNewlineF
  simp only []
  refine stepOK_ite _ _ _ _ (fun hc => ?_) (fun hc => ?_)
  · rw [show (l.acceptNewline).1 = true from hr] at hc
    simp at hc
  · exact stepOK_emit _ _ (acceptNewline_keeps l) (by decide) (by decide) (by decide)

theorem lexSpaceContOK (l : lexer) : stepOK l (lexSpaceCont l) := by
  unfold lexSpaceCont
  simp only []
  refine stepOK_ite _ _ _ _ (fun hc => ?_) (fun hc => ?_)
  · exact stepOK_err l _ _
  · exact stepOK_silent _ (acceptNewline_keeps l) fun hh => nomatch hh

theorem lexSpaceOK (l : lexer) : stepOK l (lexSpaceF l) := by
  unfold lexSpaceF lexSpaceCont
  simp only []
  repeat' refine stepOK_ite _ _ _ _ (fun hc => ?_) (fun hc => ?_)
  · exact stepOK_silent _ (accept_keeps l _) fun hh => nomatch hh
  · exact stepOK_halt_emit _
      (keeps_trans (accept_keeps l _) (keeps_trans (acceptRun_keeps _ _) (peek_keeps _)))
      (by decide) (by decide)
  · exact stepOK_err l _ _
  · exact stepOK_err l _ _
  · exact stepOK_silent _
      (keeps_trans (accept_keeps l _)
        (keeps_trans (acceptRun_keeps _ _)
          (keeps_trans (peek_keeps _)
            (keeps_trans (next_keeps _)
              (keeps_trans (acceptRun_keeps _ _)
                (keeps_trans (peek_keeps _)
                  (keeps_trans (next_keeps _)
                    (keeps_trans (peek_keeps _)
                      (keeps_trans (until_keeps _ _) (acceptNewline_keeps _))))))))))
      fun hh => nomatch hh
  · exact stepOK_err l _ _
  · exact stepOK_silent _
      (keeps_trans (accept_keeps l _)
        (keeps_trans (acceptRun_keeps _ _)
          (keeps_trans (peek_keeps _)
            (keeps_trans (next_keeps _)
              (keeps_trans (acceptRun_keeps _ _)
                (keeps_trans (peek_keeps _) (acceptNewline_keeps _)))))))
      fun hh => nomatch hh
  · exact stepOK_emit _ _
      (keeps_trans (accept_keeps l _) (keeps_trans (acceptRun_keeps _ _) (peek_keeps _)))
      (by decide) (by decide) (by decide)

theorem identFinishOK (l : lexer) : stepOK l (identFinish l) := by
  unfold identFinish
  simp only []
  exact stepOK_emit _ _ (identRunF_keeps _ _) (by simp) (by simp) (by decide)

theorem lexIdentifierOK (l : lexer) : stepOK l (lexIdentifierF l) := by
  unfold lexIdentifierF
  simp only []
  repeat' refine stepOK_ite _ _ _ _ (fun hc => ?_) (fun hc => ?_)
  · exact stepOK_silent _ (keeps_trans (accept_keeps l _) (peek_keeps _)) fun hh => nomatch hh
  · exact stepOK_of_keeps (keeps_trans (accept_keeps l _) (peek_keeps _)) (identFinishOK _)
  · exact stepOK_err l _ _
  · exact stepOK_of_keeps (keeps_trans (accept_keeps l _) (next_keeps _)) (identFinishOK _)

theorem lexNumberDecimalOK (l : lexer) : stepOK l (lexNumberDecimal l) := by
  unfold lexNumberDecimal
  simp only []
  by_cases h1 : ((l.acceptRun digitsU).accept [46]).1 = true
  · simp only [if_pos h1]
    by_cases h2 : ((((l.acceptRun digitsU).accept [46]).2.acceptRun digitsU).accept [101, 69]).1 = true
    · simp only [if_pos h2]
      exact stepOK_emit _ _
        (keeps_trans (acceptRun_keeps l _)
          (keeps_trans (accept_keeps _ _)
            (keeps_trans (acceptRun_keeps _ _)
              (keeps_trans (accept_keeps _ _)
                (keeps_trans (accept_keeps _ _) (acceptRun_keeps _ _))))))
        (by simp) (by simp) (by decide)
    · simp only [if_neg h2]
      exact stepOK_emit _ _
        (keeps_trans (acceptRun_keeps l _)
          (keeps_trans (accept_keeps _ _)
            (keeps_trans (acceptRun_keeps _ _) (accept_keeps _ _))))
        (by simp) (by simp) (by decide)
  · simp only [if_neg h1]
    by_cases h2 : (((l.acceptRun digitsU).accept [46]).2.accept [101, 69]).1 = true
    · simp only [if_pos h2]
      exact stepOK_emit _ _
        (keeps_trans (acceptRun_keeps l _)
          (keeps_trans (accept_keeps _ _)
            (keeps_trans (accept_keeps _ _)
              (keeps_trans (accept_keeps _ _) (acceptRun_keeps _ _)))))
        (by simp) (by simp) (by decide)
    · simp only [if_neg h2]
      exact stepOK_emit _ _
        (keeps_trans (acceptRun_keeps l _)
          (keeps_trans (accept_keeps _ _) (accept_keeps _ _)))
        (by simp) (by simp) (by decide)

theorem lexNumberRadixOK (l : lexer) : stepOK l (lexNumberRadix l) := by
  unfold lexNumberRadix
  simp only []
  repeat' refine stepOK_ite _ _ _ _ (fun hc => ?_) (fun hc => ?_)
  · exact stepOK_halt_emit _ (keeps_trans (accept_keeps l _) (next_keeps _))
      (by simp) (by simp)
  · exact stepOK_emit _ _
      (keeps_trans (accept_keeps l _) (keeps_trans (next_keeps _) (acceptRun_keeps _ _)))
      (by simp) (by simp) (by decide)
  · exact stepOK_emit _ _
      (keeps_trans (accept_keeps l _) (keeps_trans (next_keeps _) (acceptRun_keeps _ _)))
      (by simp) (by simp) (by decide)
  · exact stepOK_emit _ _
      (keeps_trans (accept_keeps l _) (keeps_trans (next_keeps _) (acceptRun_keeps _ _)))
      (by simp) (by simp) (by decide)
  · exact stepOK_of_keeps
      (keeps_trans (accept_keeps l _) (keeps_trans (next_keeps _) (backup_keeps _)))
      (lexNumberDecimalOK _)
  · exact stepOK_of_keeps (accept_keeps l _) (lexNumberDecimalOK _)

theorem lexNumberOK (l : lexer) : stepOK l (lexNumberF l) := by
  unfold lexNumberF
  simp only []
  by_cases h1 : (l.accept [43, 45]).2.last = 43
  · simp only [if_pos h1]
    by_cases h2 : (!digit ((l.accept [43, 45]).2.peek).1) = true
    · simp only [if_pos h2]
      exact stepOK_silent _ (keeps_trans (accept_keeps l _) (peek_keeps _)) fun hh => nomatch hh
    · simp only [if_neg h2]
      exact stepOK_of_keeps (keeps_trans (accept_keeps l _) (peek_keeps _)) (lexNumberRadixOK _)
  · simp only [if_neg h1]
    exact stepOK_of_keeps (accept_keeps l _) (lexNumberRadixOK _)

theorem stringLoopOK : ∀ n l, stepOK l (stringLoopF n l) := by
  intro n
  induction n with
  | zero => intro l; exact stepOK_halt_silent l l
  | succ n ih =>
    intro l
    unfold stringLoopF
    simp only []
    repeat' refine stepOK_ite _ _ _ _ (fun hc => ?_) (fun hc => ?_)
    · exact stepOK_err l _ _
    · exact stepOK_emit _ _ (keeps_trans (until_keeps l _) (next_keeps _))
        (by simp) (by simp) (by decide)
    · exact stepOK_of_keeps
        (keeps_trans (until_keeps l _)
          (keeps_trans (next_keeps _)
            (keeps_trans (next_keeps _) (replaceEsc_keeps _ _ _ (by norm_num))))) (ih _)
    · exact stepOK_of_keeps
        (keeps_trans (until_keeps l _)
          (keeps_trans (next_keeps _)
            (keeps_trans (next_keeps _) (replaceEsc_keeps _ _ _ (by norm_num))))) (ih _)
    · exact stepOK_of_keeps
        (keeps_trans (until_keeps l _)
          (keeps_trans (next_keeps _)
            (keeps_trans (next_keeps _) (replaceEsc_keeps _ _ _ (by norm_num))))) (ih _)
    · exact stepOK_of_keeps
        (keeps_trans (until_keeps l _)
          (keeps_trans (next_keeps _)
            (keeps_trans (next_keeps _) (replaceEsc_keeps _ _ _ (by norm_num))))) (ih _)
    · exact stepOK_of_keeps
        (keeps_trans (until_keeps l _)
          (keeps_trans (next_keeps _)
            (keeps_trans (next_keeps _) (replaceEsc_keeps _ _ _ (by norm_num))))) (ih _)
    · exact stepOK_of_keeps
        (keeps_trans (until_keeps l _)
          (keeps_trans (next_keeps _)
            (keeps_trans (next_keeps _) (replaceEsc_keeps _ _ _ (by norm_num))))) (ih _)
    · exact stepOK_of_keeps
        (keeps_trans (until_keeps l _)
          (keeps_trans (next_keeps _)
            (keeps_trans (next_keeps _) (replaceEsc_keeps _ _ _ (by norm_num))))) (ih _)
    · exact stepOK_of_keeps
        (keeps_trans (until_keeps l _)
          (keeps_trans (next_keeps _)
            (keeps_trans (next_keeps _) (replaceEsc_keeps _ _ _ (by norm_num))))) (ih _)
    · exact stepOK_err l _ _
    · split
      · exact stepOK_err l _ _
      · exact stepOK_of_keeps
          (keeps_trans (until_keeps l _)
            (keeps_trans (next_keeps _)
              (keeps_trans (next_keeps _)
                (keeps_trans (next_keeps _)
                  (keeps_trans (parseHex_keeps _ _ _)
                    (replaceEsc_keeps _ _ _ (parseHex_nonneg _ _ _ (le_refl 0)))))))) (ih _)
    · exact stepOK_err l _ _
    · exact stepOK_of_keeps (keeps_trans (until_keeps l _) (next_keeps _)) (ih _)

theorem lexStringOK (l : lexer) : stepOK l (lexStringF l) := by
  unfold lexStringF
  simp only []
  exact stepOK_of_keeps (accept_keeps l _) (stringLoopOK _ _)

theorem rawFindEndOK (hashes : Nat) : ∀ n l, stepOK l (rawFindEndF hashes n l) := by
  intro n
  induction n with
  | zero => intro l; exact stepOK_halt_silent l l
  | succ n ih =>
    intro l
    unfold rawFindEndF
    simp only []
    repeat' refine stepOK_ite _ _ _ _ (fun hc => ?_) (fun hc => ?_)
    · exact stepOK_err l _ _
    · exact stepOK_emit _ _
        (keeps_trans (until_keeps l _)
          (keeps_trans (next_keeps _) (acceptHashes_keeps _ _)))
        (by simp) (by simp) (by decide)
    · exact stepOK_of_keeps
        (keeps_trans (until_keeps l _)
          (keeps_trans (next_keeps _) (acceptHashes_keeps _ _))) (ih _)

theorem lexRawStringOK (l : lexer) : stepOK l (lexRawStringF l) := by
  unfold lexRawStringF
  simp only []
  by_cases h1 : (hashCountF (l.meas + 1) l).2.last ≠ 34
  · simp only [if_pos h1]
    exact stepOK_err l _ _
  · simp only [if_neg h1]
    exact stepOK_of_keeps (hashCountF_keeps _ _) (rawFindEndOK _ _ _)

theorem lexCommentOK (l : lexer) (w : WF l) : stepOK l (lexCommentF l) := by
  unfold lexCommentF
  simp only []
  by_cases h1 : (l.next).1 ≠ 47
  · simp only [if_pos h1]
    exact stepOK_halt_silent l _
  · simp only [if_neg h1]
    by_cases h2 : ((l.next).2.next).1 = 47
    · simp only [if_pos h2]
      by_cases h3 : ((((l.next).2.next).2.until newline).ignore).atEOF = true
      · simp only [if_pos h3]
        exact stepOK_halt_silent l _
      · simp only [if_neg h3]
        refine stepOK_silent _
          (keeps_trans (next_keeps l)
            (keeps_trans (next_keeps _)
              (keeps_trans (until_keeps _ _) (ignore_keeps _)))) fun _ => ?_
        have w2 : WF ((l.next).2.next).2 := (keeps_trans (next_keeps l) (next_keeps _)).1 w
        rcases until_post (((l.next).2.next).2) newline w2 with hm | he
        · refine acceptNewline_of_nv _ ?_
          rw [nv_ignore]
          exact hm
        · exact absurd (by rw [ignore_atEOF]; exact he) h3
    · simp only [if_neg h2]
      by_cases h3 : ((l.next).2.next).1 = 42
      · simp only [if_pos h3]
        split
        · exact stepOK_err l _ _
        · exact stepOK_silent _
            (keeps_trans (next_keeps l)
              (keeps_trans (next_keeps _)
                (keeps_trans (commentLoopF_keeps _ _ _) (ignore_keeps _))))
            fun hh => nomatch hh
      · simp only [if_neg h3]
        by_cases h4 : ((l.next).2.next).1 = 45
        · simp only [if_pos h4]
          exact stepOK_emit _ _ (keeps_trans (next_keeps l) (next_keeps _))
            (by decide) (by decide) (by decide)
        · simp only [if_neg h4]
          exact stepOK_err l _ _

theorem stepOKmain (st : lexState) (l : lexer) (w : WF l)
    (hN : st = .sNewline → newlineReady l) : stepOK l (step st l) := by
  cases st with
  | sAny => exact lexAnyOK l w
  | sNumber => exact lexNumberOK l
  | sIdentifier => exact lexIdentifierOK l
  | sString => exact lexStringOK l
  | sRawString => exact lexRawStringOK l
  | sComment => exact lexCommentOK l w
  | sSpace => exact lexSpaceOK l
  | sNewline => exact lexNewlineOK l (hN rfl)

theorem WF_init (s : List Char) : WF (initLexer s) :=
  ⟨fun _ => rfl, fun r hr => absurd hr (List.not_mem_nil r),
   fun r hr => absurd hr (List.not_mem_nil r)⟩

/-- The global invariant of any producer run: no adjacent Space tokens, an
Error only as the very last token, and no `tokEOF` token is ever emitted. -/
theorem runGood : ∀ n st l, WF l → (st = .sNewline → newlineReady l) →
    noAdjFrom l.lastWasSpace (run n st l) ∧ errLastOnly (run n st l) ∧
    noEOFout (run n st l) := by
  intro n
  induction n with
  | zero =>
    intro st l _ _
    exact ⟨trivial, trivial, fun t ht => absurd ht (List.not_mem_nil t)⟩
  | succ n ih =>
    intro st l w hN
    have hs := stepOKmain st l w hN
    unfold run
    simp only []
    rcases hstep : step st l with ⟨o, nx, l2⟩
    rw [hstep] at hs
    obtain ⟨hAdj, hEOF, hRest⟩ := hs
    cases nx with
    | none => exact ⟨hAdj, hRest, hEOF⟩
    | some st2 =>
      obtain ⟨hef, hfl, hwf, hnr⟩ := hRest
      obtain ⟨ih1, ih2, ih3⟩ := ih st2 l2 (hwf w) hnr
      refine ⟨noAdjFrom_append hAdj ?_, errLastOnly_append hef ih2, noEOFout_append hEOF ih3⟩
      rw [← hfl]
      exact ih1

/-- Executable check that a token list has no two adjacent Space tokens. -/
def noTwoSpacesB : List token → Bool
  | [] => true
  | [_] => true
  | a :: b :: ts =>
    (!(decide (a.typ = .tokSpace) && decide (b.typ = .tokSpace))) && noTwoSpacesB (b :: ts)

theorem noTwoSpacesB_of_noAdjFrom : ∀ (o : List token) (b : Bool),
    noAdjFrom b o → noTwoSpacesB o = true := by
  intro o
  induction o with
  | nil => intro b _; rfl
  | cons t ts ih =>
    intro b h
    cases ts with
    | nil => rfl
    | cons t2 ts2 =>
      have h2 := h.2
      show ((!(decide (t.typ = .tokSpace) && decide (t2.typ = .tokSpace))) &&
        noTwoSpacesB (t2 :: ts2)) = true
      rw [Bool.and_eq_true]
      refine ⟨?_, ih _ h2⟩
      by_cases hts : t.typ = .tokSpace
      · have hne := h2.1 (by simp [hts])
        simp [hts, hne]
      · simp [hts]

theorem errLastOnly_get : ∀ (o : List token) (i : Nat) (t : token), errLastOnly o →
    o.get? i = some t → t.typ = .tokErr → o.get? (i + 1) = none := by
  intro o
  induction o with
  | nil => intro i t _ h; simp at h
  | cons a as ih =>
    intro i t h hg he
    cases i with
    | zero =>
      simp only [List.get?_cons_zero, Option.some_inj] at hg
      subst hg
      have : as = [] := h.1 he
      subst this
      rfl
    | succ i =>
      simp only [List.get?_cons_succ] at hg ⊢
      exact ih i t h.2 hg he

theorem errLastOnly_length {o : List token} {i : Nat} {t : token} (h : errLastOnly o)
    (hg : o.get? i = some t) (he : t.typ = .tokErr) : o.length = i + 1 := by
  have h1 : i < o.length := List.get?_eq_some.1 hg |>.1
  have h2 : o.length ≤ i + 1 := List.get?_eq_none.1 (errLastOnly_get o i t h hg he)
  omega

/-- C4: for any input consisting solely of whitespace material (whitespace
scalars, continuation backslashes, newlines and comment slashes), the token
stream has no two adjacent Space tokens — so at most one Space stands
between any two non-Space tokens.  (The proof does not even need the
restriction: the `emit` coalescing guarantees it for every input.) -/
theorem C4_coalescing : ∀ (s : List Char) (fuel : Nat),
    (∀ c ∈ s, runeIn spaces (rune c) = true ∨ rune c = 92 ∨
      runeIn newline (rune c) = true ∨ rune c = 47) →
    noTwoSpacesB (lexTokens fuel s) = true := by
  intro s fuel _
  exact noTwoSpacesB_of_noAdjFrom _ _
    (runGood fuel .sAny (initLexer s) (WF_init s) (fun hh => nomatch hh)).1

theorem C4_witness :
    noTwoSpacesB (lexTokens 8 ("  \t ").toList) = true :=
  C4_coalescing ("  \t ").toList 8 (by decide)

/-- C10: the error branch of the Newline state is unreachable.  Whenever the
producer delivers an Error token it is the last token of the stream — in
particular no Newline token (which the missing early return in `lexNewline`
would emit right after its error) ever follows an Error token, for every
input and any fuel. -/
theorem C10_newline_error_unreachable :
    ∀ (s : List Char) (fuel i : Nat) (t : token),
      (lexTokens fuel s).get? i = some t → t.typ = .tokErr →
      (lexTokens fuel s).get? (i + 1) = none := by
  intro s fuel i t hg he
  exact errLastOnly_get _ i t
    (runGood fuel .sAny (initLexer s) (WF_init s) (fun hh => nomatch hh)).2.1 hg he

theorem C10_witness :
    (lexTokens 8 ([1].map Char.ofNat)).get? 1 = none :=
  C10_newline_error_unreachable ([1].map Char.ofNat) 8 0
    { typ := .tokErr, err := "don\x27t know how to lex %q" } (by decide) (by decide)

/-- C1 (amended): terminal signals after the first one are End, not a repeat
of the Error.  Once the producer has delivered an Error token the channel is
closed and every later pull returns the End (zero) token; and End is sticky:
a pull that returns End is followed only by End forever. -/
theorem C1_amended :
    (∀ (s : List Char) (fuel i j : Nat) (t : token), i < j →
        (lexTokens fuel s).get? i = some t → t.typ = .tokErr →
        pull fuel s j = { typ := .tokEOF }) ∧
    (∀ (s : List Char) (fuel n m : Nat), n ≤ m →
        (pull fuel s n).typ = .tokEOF → pull fuel s m = { typ := .tokEOF }) := by
  constructor
  · intro s fuel i j t hij hg he
    have hlen : (lexTokens fuel s).length = i + 1 :=
      errLastOnly_length
        (runGood fuel .sAny (initLexer s) (WF_init s) (fun hh => nomatch hh)).2.1 hg he
    unfold pull
    apply List.getD_eq_default
    omega
  · intro s fuel n m hnm he
    have hEOF := (runGood fuel .sAny (initLexer s) (WF_init s) (fun hh => nomatch hh)).2.2
    by_cases hn : n < (lexTokens fuel s).length
    · exfalso
      have : pull fuel s n = (lexTokens fuel s).get ⟨n, hn⟩ := by
        unfold pull
        exact List.getD_eq_get _ _ hn
      rw [this] at he
      exact hEOF _ (List.get_mem _ _ _) he
    · unfold pull
      apply List.getD_eq_default
      omega

theorem C1_amended_witness :
    pull 8 ([1].map Char.ofNat) 3 = { typ := .tokEOF } :=
  C1_amended.1 ([1].map Char.ofNat) 8 0 3
    { typ := .tokErr, err := "don\x27t know how to lex %q" }
    (by decide) (by decide) (by decide)

/-!
Symbolic-execution toolkit: the effect of each rune-source operation on a
state whose pushback stack is empty (`cons` form) or holds exactly the one
rune a preceding peek pushed back (`pushed` form).
-/

theorem rune_ne_eof (c : Char) : rune c ≠ eofR := by
  unfold rune eofR
  intro h
  omega

theorem runeIn_ne_eof {v : List Int} {r : Int} (h : runeIn v r = true) : r ≠ eofR := by
  unfold runeIn at h
  rcases Bool.and_eq_true _ _ |>.mp h with ⟨h1, _⟩
  exact of_decide_eq_true h1

theorem next_cons (c : Char) (cs : List Char) (rs : List Int) (b : Bool) :
    (⟨c :: cs, rs, [], false, b⟩ : lexer).next = (rune c, ⟨cs, rs ++ [rune c], [], false, b⟩) := rfl

theorem next_pushed (r : Int) (cs : List Char) (rs : List Int) (b : Bool) :
    (⟨cs, rs, [r], false, b⟩ : lexer).next = (r, ⟨cs, rs ++ [r], [], false, b⟩) := rfl

theorem backup_concat (cs : List Char) (rs : List Int) (r : Int) (b : Bool) :
    (⟨cs, rs ++ [r], [], false, b⟩ : lexer).backup = ⟨cs, rs, [r], false, b⟩ := by
  unfold lexer.backup
  simp [List.getLastD_concat, List.dropLast_concat]

theorem peek_cons (c : Char) (cs : List Char) (rs : List Int) (b : Bool) :
    (⟨c :: cs, rs, [], false, b⟩ : lexer).peek = (rune c, ⟨cs, rs, [rune c], false, b⟩) := by
  unfold lexer.peek
  rw [next_cons]
  simp only []
  rw [backup_concat]

theorem peek_pushed (r : Int) (cs : List Char) (rs : List Int) (b : Bool) :
    (⟨cs, rs, [r], false, b⟩ : lexer).peek = (r, ⟨cs, rs, [r], false, b⟩) := by
  unfold lexer.peek
  rw [next_pushed]
  simp only []
  rw [backup_concat]

theorem accept_cons_succ {v : List Int} {c : Char} (cs : List Char) (rs : List Int) (b : Bool)
    (h : runeIn v (rune c) = true) :
    (⟨c :: cs, rs, [], false, b⟩ : lexer).accept v = (true, ⟨cs, rs ++ [rune c], [], false, b⟩) := by
  unfold lexer.accept
  rw [next_cons]
  simp only []
  rw [if_pos h]

theorem accept_cons_fail {v : List Int} {c : Char} (cs : List Char) (rs : List Int) (b : Bool)
    (h : runeIn v (rune c) = false) :
    (⟨c :: cs, rs, [], false, b⟩ : lexer).accept v = (false, ⟨cs, rs, [rune c], false, b⟩) := by
  unfold lexer.accept
  rw [next_cons]
  simp only []
  rw [if_neg (by simp [h]), backup_concat]

theorem accept_pushed_succ {v : List Int} {r : Int} (cs : List Char) (rs : List Int) (b : Bool)
    (h : runeIn v r = true) :
    (⟨cs, rs, [r], false, b⟩ : lexer).accept v = (true, ⟨cs, rs ++ [r], [], false, b⟩) := by
  unfold lexer.accept
  rw [next_pushed]
  simp only []
  rw [if_pos h]

theorem accept_pushed_fail {v : List Int} {r : Int} (cs : List Char) (rs : List Int) (b : Bool)
    (h : runeIn v r = false) :
    (⟨cs, rs, [r], false, b⟩ : lexer).accept v = (false, ⟨cs, rs, [r], false, b⟩) := by
  unfold lexer.accept
  rw [next_pushed]
  simp only []
  rw [if_neg (by simp [h]), backup_concat]

theorem acceptRunF_through (v : List Int) : ∀ (ws : List Char) (n : Nat) (c : Char)
    (cs : List Char) (rs : List Int) (b : Bool),
    (∀ x ∈ ws, runeIn v (rune x) = true) → runeIn v (rune c) = false → ws.length < n →
    acceptRunF v n ⟨ws ++ c :: cs, rs, [], false, b⟩ = ⟨cs, rs ++ ws.map rune, [rune c], false, b⟩ := by
  intro ws
  induction ws with
  | nil =>
    intro n c cs rs b _ hc hn
    cases n with
    | zero => omega
    | succ n =>
      unfold acceptRunF
      rw [List.nil_append, next_cons]
      simp only []
      rw [if_neg (by simp [hc]), backup_concat]
      simp
  | cons w ws ih =>
    intro n c cs rs b hws hc hn
    cases n with
    | zero => simp at hn
    | succ n =>
      unfold acceptRunF
      rw [List.cons_append, next_cons]
      simp only []
      rw [if_pos (hws w (List.mem_cons_self _ _))]
      rw [ih n c cs (rs ++ [rune w]) b (fun x hx => hws x (List.mem_cons_of_mem _ hx)) hc
        (by simpa using Nat.lt_of_succ_lt_succ hn)]
      simp

theorem acceptRun_through {v : List Int} (ws : List Char) (c : Char) (cs : List Char)
    (rs : List Int) (b : Bool)
    (hws : ∀ x ∈ ws, runeIn v (rune x) = true) (hc : runeIn v (rune c) = false) :
    (⟨ws ++ c :: cs, rs, [], false, b⟩ : lexer).acceptRun v =
      ⟨cs, rs ++ ws.map rune, [rune c], false, b⟩ := by
  unfold lexer.acceptRun
  apply acceptRunF_through v ws _ c cs rs b hws hc
  simp [lexer.meas]
  omega

theorem untilF_through (v : List Int) : ∀ (body : List Char) (n : Nat) (t : Char)
    (cs : List Char) (rs : List Int) (b : Bool),
    (∀ x ∈ body, runeIn v (rune x) = false) → runeIn v (rune t) = true → body.length < n →
    untilF v n ⟨body ++ t :: cs, rs, [], false, b⟩ = ⟨cs, rs ++ body.map rune, [rune t], false, b⟩ := by
  intro body
  induction body with
  | nil =>
    intro n t cs rs b _ ht hn
    cases n with
    | zero => omega
    | succ n =>
      unfold untilF
      rw [List.nil_append, peek_cons]
      simp only []
      rw [if_pos ht]
      simp
  | cons x body ih =>
    intro n t cs rs b hbody ht hn
    cases n with
    | zero => simp at hn
    | succ n =>
      unfold untilF
      rw [List.cons_append, peek_cons]
      simp only []
      rw [if_neg (by simp [hbody x (List.mem_cons_self _ _)]),
        if_neg (by simpa using rune_ne_eof x), next_pushed]
      simp only []
      rw [ih n t cs (rs ++ [rune x]) b (fun y hy => hbody y (List.mem_cons_of_mem _ hy)) ht
        (by simpa using Nat.lt_of_succ_lt_succ hn)]
      simp

theorem until_through {v : List Int} (body : List Char) (t : Char) (cs : List Char)
    (rs : List Int) (b : Bool)
    (hbody : ∀ x ∈ body, runeIn v (rune x) = false) (ht : runeIn v (rune t) = true) :
    (⟨body ++ t :: cs, rs, [], false, b⟩ : lexer).until v =
      ⟨cs, rs ++ body.map rune, [rune t], false, b⟩ := by
  unfold lexer.until
  apply untilF_through v body _ t cs rs b hbody ht
  simp [lexer.meas]
  omega

theorem until_pushed_through {v : List Int} (r : Int) (body : List Char) (t : Char)
    (cs : List Char) (rs : List Int) (b : Bool)
    (hr : runeIn v r = false) (hre : r ≠ eofR)
    (hbody : ∀ x ∈ body, runeIn v (rune x) = false) (ht : runeIn v (rune t) = true) :
    (⟨body ++ t :: cs, rs, [r], false, b⟩ : lexer).until v =
      ⟨cs, (rs ++ [r]) ++ body.map rune, [rune t], false, b⟩ := by
  unfold lexer.until
  have hm : (⟨body ++ t :: cs, rs, [r], false, b⟩ : lexer).meas =
      (body ++ t :: cs).length + 1 := by
    simp [lexer.meas]
    omega
  rw [hm]
  unfold untilF
  rw [peek_pushed]
  simp only []
  rw [if_neg (by simp [hr]), if_neg (by simpa using hre), next_pushed]
  simp only []
  exact untilF_through v body _ t cs (rs ++ [r]) b hbody ht
    (by simp only [List.length_append, List.length_cons]; omega)

theorem acceptNewline_pushed_succ (r : Int) (cs : List Char) (rs : List Int) (b : Bool)
    (h : runeIn newline r = true) (h13 : r ≠ 13) :
    (⟨cs, rs, [r], false, b⟩ : lexer).acceptNewline = (true, ⟨cs, rs ++ [r], [], false, b⟩) := by
  unfold lexer.acceptNewline
  rw [next_pushed]
  simp only []
  rw [if_neg (by simpa using runeIn_ne_eof h), if_neg (by simpa using h13), if_pos h]

theorem acceptNewline_pushed_fail (r : Int) (cs : List Char) (rs : List Int) (b : Bool)
    (h : runeIn newline r = false) (hre : r ≠ eofR) :
    (⟨cs, rs, [r], false, b⟩ : lexer).acceptNewline = (false, ⟨cs, rs ++ [r], [], false, b⟩) := by
  have h13 : r ≠ 13 := by
    intro hh
    rw [hh] at h
    exact absurd h (by decide)
  unfold lexer.acceptNewline
  rw [next_pushed]
  simp only []
  rw [if_neg (by simpa using hre), if_neg (by simpa using h13), if_neg (by simp [h])]

/-- Every rune in the effective whitespace set fails every dispatch test of
the Any state that precedes the whitespace branch. -/
theorem space_class {r : Int} (h : runeIn spaces r = true) :
    r ≠ eofR ∧ numberStart r = false ∧ identifierStart r = false ∧
    r ≠ 34 ∧ r ≠ 61 ∧ r ≠ 123 ∧ r ≠ 125 ∧ r ≠ 59 ∧ r ≠ 47 := by
  unfold runeIn spaces at h
  rcases Bool.and_eq_true _ _ |>.mp h with ⟨_, h2⟩
  have hm : r ∈ [9, 32, 5760, 8192, 8193, 8194, 8195, 8196, 8197, 8198, 8199, 8200, 8201,
      8202, 8239, 8287, 12288] := by simpa using h2
  simp only [List.mem_cons, List.mem_singleton] at hm
  rcases hm with rfl|rfl|rfl|rfl|rfl|rfl|rfl|rfl|rfl|rfl|rfl|rfl|rfl|rfl|rfl|rfl|rfl|hm
  all_goals first
    | decide
    | exact absurd hm (List.not_mem_nil _)

/-- Every rune in the effective newline set is outside the whitespace set
and is none of the continuation-relevant scalars. -/
theorem newline_class {r : Int} (h : runeIn newline r = true) :
    runeIn spaces r = false ∧ r ≠ 47 ∧ r ≠ 92 ∧ r ≠ eofR := by
  unfold runeIn newline at h
  rcases Bool.and_eq_true _ _ |>.mp h with ⟨_, h2⟩
  have hm : r ∈ [13, 10, 12, 8232, 8233] := by simpa using h2
  simp only [List.mem_cons, List.mem_singleton] at hm
  rcases hm with rfl|rfl|rfl|rfl|rfl|hm
  all_goals first
    | decide
    | exact absurd hm (List.not_mem_nil _)

theorem run_step {st : lexState} {l : lexer} {o : List token} {st2 : lexState} {l2 : lexer}
    (n : Nat) (h : step st l = (o, some st2, l2)) :
    run (n + 1) st l = o ++ run n st2 l2 := by
  conv_lhs => unfold run
  rw [h]

theorem run_halt {st : lexState} {l : lexer} {o : List token} {l2 : lexer}
    (n : Nat) (h : step st l = (o, none, l2)) :
    run (n + 1) st l = o := by
  conv_lhs => unfold run
  rw [h]

/-!
Composite step lemmas: the full effect of one state dispatch on structured
whitespace/comment/continuation input.
-/

theorem step_any_space {c : Char} (cs : List Char) (rs : List Int) (b : Bool)
    (h : runeIn spaces (rune c) = true) :
    step .sAny ⟨c :: cs, rs, [], false, b⟩ = ([], some .sSpace, ⟨cs, rs, [rune c], false, b⟩) := by
  obtain ⟨h1, h2, h3, h4, h5, h6, h7, h8, h9⟩ := space_class h
  unfold step lexAnyF
  simp only []
  rw [peek_cons]
  simp only []
  rw [if_neg h1, if_neg (by simp [h2]), if_neg (by simp [h3]), if_neg h4, if_neg h5,
    if_neg h6, if_neg h7, if_neg h8, if_neg h9, if_pos h]

theorem step_any_comment_pushed (cs : List Char) (rs : List Int) (b : Bool) :
    step .sAny ⟨cs, rs, [47], false, b⟩ = ([], some .sComment, ⟨cs, rs, [47], false, b⟩) := by
  unfold step lexAnyF
  simp only []
  rw [peek_pushed]
  simp only []
  rw [if_neg (by decide), if_neg (by decide), if_neg (by decide), if_neg (by decide),
    if_neg (by decide), if_neg (by decide), if_neg (by decide), if_neg (by decide)]
  simp

theorem commentLoopF_zero : ∀ n l, commentLoopF n 0 l = (none, l) := by
  intro n l
  cases n with
  | zero => rfl
  | succ n => rfl

theorem commentLoopF_close (m : Nat) (body : List Char) (cs : List Char) (rs : List Int)
    (b : Bool) (hbody : ∀ x ∈ body, runeIn [42, 47] (rune x) = false) :
    commentLoopF (m + 1) 1 ⟨body ++ Char.ofNat 42 :: Char.ofNat 47 :: cs, rs, [], false, b⟩ =
      (none, ⟨cs, rs ++ body.map rune ++ [42, 47], [], false, b⟩) := by
  show commentLoopF (m + 1) (0 + 1) _ = _
  unfold commentLoopF
  simp only []
  rw [until_through body (Char.ofNat 42) (Char.ofNat 47 :: cs) rs b hbody (by decide)]
  rw [next_pushed]
  simp only []
  rw [if_neg (by decide), if_pos (by decide)]
  rw [peek_cons]
  simp only []
  rw [if_neg (by decide)]
  rw [next_pushed]
  simp only []
  rw [commentLoopF_zero]
  simp [List.append_assoc, show rune (Char.ofNat 42) = 42 from by decide,
    show rune (Char.ofNat 47) = 47 from by decide]

theorem step_comment_block (body : List Char) (cs : List Char) (rs : List Int) (b : Bool)
    (hbody : ∀ x ∈ body, runeIn [42, 47] (rune x) = false) :
    step .sComment
        ⟨Char.ofNat 42 :: (body ++ Char.ofNat 42 :: Char.ofNat 47 :: cs), rs, [47], false, b⟩ =
      ([], some .sSpace, ⟨cs, [], [], false, b⟩) := by
  unfold step lexCommentF
  simp only []
  rw [next_pushed]
  simp only []
  rw [if_neg (by simp)]
  rw [next_cons]
  simp only []
  rw [if_neg (by decide), if_pos (by decide)]
  rw [commentLoopF_close _ body cs _ b hbody]
  simp only []
  rfl

theorem step_space_run_pushed {w : Char} (ws : List Char) {c : Char} (cs : List Char)
    (rs : List Int) (b : Bool)
    (hw : runeIn spaces (rune w) = true)
    (hws : ∀ x ∈ ws, runeIn spaces (rune x) = true)
    (hc : runeIn spaces (rune c) = false) (hc92 : rune c ≠ 92) :
    step .sSpace ⟨ws ++ c :: cs, rs, [rune w], false, b⟩ =
      ((if b then [] else [{ typ := .tokSpace }]), some .sAny, ⟨cs, [], [rune c], false, true⟩) := by
  unfold step lexSpaceF
  simp only []
  rw [accept_pushed_succ _ _ _ hw]
  simp only []
  rw [if_neg (by decide)]
  rw [acceptRun_through ws c cs _ b hws hc]
  rw [peek_pushed]
  simp only []
  rw [if_neg (by simpa using rune_ne_eof c), if_neg hc92]
  cases b with
  | true =>
    unfold lexer.emit
    rw [if_pos ⟨rfl, rfl⟩]
    rfl
  | false =>
    unfold lexer.emit
    rw [if_neg (by simp)]
    rfl

theorem step_space_run_cons {w : Char} (ws : List Char) {c : Char} (cs : List Char)
    (rs : List Int) (b : Bool)
    (hw : runeIn spaces (rune w) = true)
    (hws : ∀ x ∈ ws, runeIn spaces (rune x) = true)
    (hc : runeIn spaces (rune c) = false) (hc92 : rune c ≠ 92) :
    step .sSpace ⟨w :: (ws ++ c :: cs), rs, [], false, b⟩ =
      ((if b then [] else [{ typ := .tokSpace }]), some .sAny, ⟨cs, [], [rune c], false, true⟩) := by
  unfold step lexSpaceF
  simp only []
  rw [accept_cons_succ _ _ _ hw]
  simp only []
  rw [if_neg (by decide)]
  rw [acceptRun_through ws c cs _ b hws hc]
  rw [peek_pushed]
  simp only []
  rw [if_neg (by simpa using rune_ne_eof c), if_neg hc92]
  cases b with
  | true =>
    unfold lexer.emit
    rw [if_pos ⟨rfl, rfl⟩]
    rfl
  | false =>
    unfold lexer.emit
    rw [if_neg (by simp)]
    rfl

theorem step_space_nospace {c : Char} (cs : List Char) (rs : List Int) (b : Bool)
    (hc : runeIn spaces (rune c) = false) :
    step .sSpace ⟨c :: cs, rs, [], false, b⟩ = ([], some .sAny, ⟨cs, rs, [rune c], false, b⟩) := by
  unfold step lexSpaceF
  simp only []
  rw [accept_cons_fail _ _ _ hc]
  simp only []
  rw [if_pos (by decide)]

theorem step_space_cont (w : Char) (ws1 ws2 cmt : List Char) (nl : Char) (cs : List Char)
    (rs : List Int) (b : Bool)
    (hw : runeIn spaces (rune w) = true)
    (h1 : ∀ x ∈ ws1, runeIn spaces (rune x) = true)
    (h2 : ∀ x ∈ ws2, runeIn spaces (rune x) = true)
    (hcmt : cmt = [] ∨ ∃ body, cmt = Char.ofNat 47 :: Char.ofNat 47 :: body ∧
      ∀ x ∈ body, runeIn newline (rune x) = false)
    (hnl : runeIn newline (rune nl) = true) (hnl13 : rune nl ≠ 13) :
    step .sSpace ⟨ws1 ++ Char.ofNat 92 :: (ws2 ++ cmt ++ nl :: cs), rs, [rune w], false, b⟩ =
      ([], some .sSpace,
        ⟨cs, rs ++ (w :: (ws1 ++ Char.ofNat 92 :: (ws2 ++ cmt ++ [nl]))).map rune, [], false, b⟩) := by
  obtain ⟨hnsp, hn47, hn92, hne⟩ := newline_class hnl
  rcases hcmt with rfl | ⟨body, rfl, hbody⟩
  · simp only [List.append_nil]
    unfold step lexSpaceF lexSpaceCont
    simp only []
    rw [accept_pushed_succ _ _ _ hw]
    simp only []
    rw [if_neg (by decide)]
    rw [acceptRun_through ws1 (Char.ofNat 92) _ _ _ h1 (by decide)]
    rw [peek_pushed]
    simp only []
    rw [if_neg (by decide), if_pos (by decide)]
    rw [next_pushed]
    simp only []
    rw [acceptRun_through ws2 nl _ _ _ h2 hnsp]
    rw [peek_pushed]
    simp only []
    rw [if_neg hn47]
    rw [acceptNewline_pushed_succ _ _ _ _ hnl hnl13]
    simp only []
    rw [if_neg (by decide)]
    simp [List.map_append, List.append_assoc,
      show rune (Char.ofNat 92) = 92 from by decide]
  · simp only [List.cons_append, List.append_assoc]
    unfold step lexSpaceF lexSpaceCont
    simp only []
    rw [accept_pushed_succ _ _ _ hw]
    simp only []
    rw [if_neg (by decide)]
    rw [acceptRun_through ws1 (Char.ofNat 92) _ _ _ h1 (by decide)]
    rw [peek_pushed]
    simp only []
    rw [if_neg (by decide), if_pos (by decide)]
    rw [next_pushed]
    simp only []
    rw [acceptRun_through ws2 (Char.ofNat 47) _ _ _ h2 (by decide)]
    rw [peek_pushed]
    simp only []
    rw [if_pos (by decide)]
    rw [next_pushed]
    simp only []
    rw [peek_cons]
    simp only []
    rw [if_neg (by decide)]
    rw [until_pushed_through (rune (Char.ofNat 47)) body nl cs _ b (by decide)
      (by decide) hbody hnl]
    rw [acceptNewline_pushed_succ _ _ _ _ hnl hnl13]
    simp only []
    rw [if_neg (by decide)]
    simp [List.map_append, List.append_assoc,
      show rune (Char.ofNat 92) = 92 from by decide,
      show rune (Char.ofNat 47) = 47 from by decide]

theorem step_space_cont_err (w : Char) (ws1 ws2 : List Char) (c : Char) (cs : List Char)
    (rs : List Int) (b : Bool)
    (hw : runeIn spaces (rune w) = true)
    (h1 : ∀ x ∈ ws1, runeIn spaces (rune x) = true)
    (h2 : ∀ x ∈ ws2, runeIn spaces (rune x) = true)
    (hcsp : runeIn spaces (rune c) = false)
    (hcnl : runeIn newline (rune c) = false)
    (hc47 : rune c ≠ 47) :
    step .sSpace ⟨ws1 ++ Char.ofNat 92 :: (ws2 ++ c :: cs), rs, [rune w], false, b⟩ =
      ([{ typ := .tokErr, err := "unexpected rune %q in newline continuation" }], none,
        ⟨cs, rs ++ (w :: (ws1 ++ Char.ofNat 92 :: (ws2 ++ [c]))).map rune, [], false, false⟩) := by
  unfold step lexSpaceF lexSpaceCont
  simp only []
  rw [accept_pushed_succ _ _ _ hw]
  simp only []
  rw [if_neg (by decide)]
  rw [acceptRun_through ws1 (Char.ofNat 92) _ _ _ h1 (by decide)]
  rw [peek_pushed]
  simp only []
  rw [if_neg (by decide), if_pos (by decide)]
  rw [next_pushed]
  simp only []
  rw [acceptRun_through ws2 c _ _ _ h2 hcsp]
  rw [peek_pushed]
  simp only []
  rw [if_neg hc47]
  rw [acceptNewline_pushed_fail _ _ _ _ hcnl (rune_ne_eof c)]
  simp only []
  rw [if_pos (by decide)]
  unfold lexer.err
  simp [List.map_append, List.append_assoc,
    show rune (Char.ofNat 92) = 92 from by decide]

/-- C3 (amended): the Space state swallows a line continuation (backslash,
optional whitespace, optional line comment, then a non-CR newline) as if it
were whitespace, but a Space token is emitted before the following scalar is
dispatched only when at least one whitespace scalar follows the newline
(part 1); when the newline is followed directly by a non-whitespace scalar,
nothing is emitted and the swallowed run stays in the lexeme buffer
(part 2); absence of a newline after the continuation yields an Error
(part 3). -/
theorem C3_amended :
    (∀ (n : Nat) (w1 : Char) (ws1 ws2 cmt : List Char) (nl w3 : Char) (ws3 : List Char)
        (c : Char) (rest : List Char),
      runeIn spaces (rune w1) = true →
      (∀ x ∈ ws1, runeIn spaces (rune x) = true) →
      (∀ x ∈ ws2, runeIn spaces (rune x) = true) →
      (cmt = [] ∨ ∃ body, cmt = Char.ofNat 47 :: Char.ofNat 47 :: body ∧
        ∀ x ∈ body, runeIn newline (rune x) = false) →
      runeIn newline (rune nl) = true → rune nl ≠ 13 →
      runeIn spaces (rune w3) = true →
      (∀ x ∈ ws3, runeIn spaces (rune x) = true) →
      runeIn spaces (rune c) = false → rune c ≠ 92 →
      run (n + 3) .sAny (initLexer (w1 :: (ws1 ++ Char.ofNat 92 ::
          (ws2 ++ cmt ++ nl :: (w3 :: (ws3 ++ c :: rest)))))) =
        { typ := .tokSpace } :: run n .sAny ⟨rest, [], [rune c], false, true⟩) ∧
    (∀ (n : Nat) (w1 : Char) (ws1 ws2 cmt : List Char) (nl : Char)
        (c : Char) (rest : List Char),
      runeIn spaces (rune w1) = true →
      (∀ x ∈ ws1, runeIn spaces (rune x) = true) →
      (∀ x ∈ ws2, runeIn spaces (rune x) = true) →
      (cmt = [] ∨ ∃ body, cmt = Char.ofNat 47 :: Char.ofNat 47 :: body ∧
        ∀ x ∈ body, runeIn newline (rune x) = false) →
      runeIn newline (rune nl) = true → rune nl ≠ 13 →
      runeIn spaces (rune c) = false →
      run (n + 3) .sAny (initLexer (w1 :: (ws1 ++ Char.ofNat 92 ::
          (ws2 ++ cmt ++ nl :: (c :: rest))))) =
        run n .sAny ⟨rest, (w1 :: (ws1 ++ Char.ofNat 92 :: (ws2 ++ cmt ++ [nl]))).map rune,
          [rune c], false, false⟩) ∧
    (∀ (n : Nat) (w1 : Char) (ws1 ws2 : List Char) (c : Char) (rest : List Char),
      runeIn spaces (rune w1) = true →
      (∀ x ∈ ws1, runeIn spaces (rune x) = true) →
      (∀ x ∈ ws2, runeIn spaces (rune x) = true) →
      runeIn spaces (rune c) = false → runeIn newline (rune c) = false → rune c ≠ 47 →
      run (n + 2) .sAny (initLexer (w1 :: (ws1 ++ Char.ofNat 92 :: (ws2 ++ c :: rest)))) =
        [{ typ := .tokErr, err := "unexpected rune %q in newline continuation" }]) := by
  refine ⟨?_, ?_, ?_⟩
  · intro n w1 ws1 ws2 cmt nl w3 ws3 c rest hw1 hws1 hws2 hcmt hnl hnl13 hw3 hws3 hc hc92
    simp only [initLexer]
    rw [show n + 3 = (n + 2) + 1 by omega,
      run_step (n + 2) (step_any_space _ _ _ hw1)]
    rw [show n + 2 = (n + 1) + 1 by omega,
      run_step (n + 1) (step_space_cont w1 ws1 ws2 cmt nl _ _ _ hw1 hws1 hws2 hcmt hnl hnl13)]
    rw [show n + 1 = n + 1 from rfl,
      run_step n (step_space_run_cons ws3 _ _ _ hw3 hws3 hc hc92)]
    simp
  · intro n w1 ws1 ws2 cmt nl c rest hw1 hws1 hws2 hcmt hnl hnl13 hc
    simp only [initLexer]
    rw [show n + 3 = (n + 2) + 1 by omega,
      run_step (n + 2) (step_any_space _ _ _ hw1)]
    rw [show n + 2 = (n + 1) + 1 by omega,
      run_step (n + 1) (step_space_cont w1 ws1 ws2 cmt nl _ _ _ hw1 hws1 hws2 hcmt hnl hnl13)]
    rw [show n + 1 = n + 1 from rfl,
      run_step n (step_space_nospace _ _ _ hc)]
    simp
  · intro n w1 ws1 ws2 c rest hw1 hws1 hws2 hcsp hcnl hc47
    simp only [initLexer]
    rw [show n + 2 = (n + 1) + 1 by omega,
      run_step (n + 1) (step_any_space _ _ _ hw1)]
    rw [run_halt n (step_space_cont_err w1 ws1 ws2 c _ _ _ hw1 hws1 hws2 hcsp hcnl hc47)]
    simp

theorem C3_amended_witness :
    run (5 + 3) .sAny (initLexer (Char.ofNat 32 :: ([] ++ Char.ofNat 92 ::
        ([] ++ [] ++ Char.ofNat 10 :: (Char.ofNat 32 :: ([] ++ Char.ofNat 120 :: [])))))) =
      { typ := .tokSpace } :: run 5 .sAny ⟨[], [], [rune (Char.ofNat 120)], false, true⟩ :=
  C3_amended.1 5 (Char.ofNat 32) [] [] [] (Char.ofNat 10) (Char.ofNat 32) []
    (Char.ofNat 120) [] (by decide) (by decide) (by decide) (Or.inl rfl)
    (by decide) (by decide) (by decide) (by decide) (by decide) (by decide)

/-- C5 (amended): a discarded block comment does not reset the
last-token-was-space flag, so for whitespace, then a block comment, then
whitespace, then a non-space scalar, exactly one Space token is emitted (the
one before the comment) and the Space after the comment is discarded by
coalescing before the following scalar is dispatched. -/
theorem C5_amended : ∀ (n : Nat) (w1 : Char) (ws1 body : List Char)
    (w2 : Char) (ws2 : List Char) (c : Char) (rest : List Char),
    runeIn spaces (rune w1) = true →
    (∀ x ∈ ws1, runeIn spaces (rune x) = true) →
    (∀ x ∈ body, runeIn [42, 47] (rune x) = false) →
    runeIn spaces (rune w2) = true →
    (∀ x ∈ ws2, runeIn spaces (rune x) = true) →
    runeIn spaces (rune c) = false → rune c ≠ 92 →
    run (n + 5) .sAny (initLexer (w1 :: (ws1 ++ Char.ofNat 47 :: Char.ofNat 42 ::
        (body ++ Char.ofNat 42 :: Char.ofNat 47 :: (w2 :: (ws2 ++ c :: rest)))))) =
      { typ := .tokSpace } :: run n .sAny ⟨rest, [], [rune c], false, true⟩ := by
  intro n w1 ws1 body w2 ws2 c rest hw1 hws1 hbody hw2 hws2 hc hc92
  simp only [initLexer]
  rw [show n + 5 = (n + 4) + 1 by omega,
    run_step (n + 4) (step_any_space _ _ _ hw1)]
  rw [show n + 4 = (n + 3) + 1 by omega,
    run_step (n + 3) (step_space_run_pushed ws1 _ _ _ hw1 hws1 (by decide) (by decide))]
  simp only [show rune (Char.ofNat 47) = 47 from by decide]
  rw [show n + 3 = (n + 2) + 1 by omega,
    run_step (n + 2) (step_any_comment_pushed _ _ _)]
  rw [show n + 2 = (n + 1) + 1 by omega,
    run_step (n + 1) (step_comment_block body _ _ _ hbody)]
  rw [show n + 1 = n + 1 from rfl,
    run_step n (step_space_run_cons ws2 _ _ _ hw2 hws2 hc hc92)]
  simp

theorem C5_amended_witness :
    run (3 + 5) .sAny (initLexer (Char.ofNat 9 :: ([] ++ Char.ofNat 47 :: Char.ofNat 42 ::
        ([] ++ Char.ofNat 42 :: Char.ofNat 47 :: (Char.ofNat 9 :: ([] ++ Char.ofNat 120 :: [])))))) =
      { typ := .tokSpace } :: run 3 .sAny ⟨[], [], [rune (Char.ofNat 120)], false, true⟩ :=
  C5_amended 3 (Char.ofNat 9) [] [] (Char.ofNat 9) [] (Char.ofNat 120) []
    (by decide) (by decide) (by decide) (by decide) (by decide) (by decide) (by decide)

/-!
Concrete runs used by the claims.  Inputs that contain a brace, a quote or a
backslash are written as code-point lists.
-/

/-- C6: numeric dispatch and sign reclassification. `0x1F` lexes as Integer
with text `0x1F`, `1.5e10` as Float with text `1.5e10`, `+5` as Integer with
text `+5`, and `+foo` as one Identifier token with text `+foo`. -/
theorem C6_numeric_dispatch :
    lexTokens 32 ("0x1F").toList = [{ typ := .tokInt, str := runes "0x1F" }] ∧
    lexTokens 32 ("1.5e10").toList = [{ typ := .tokFloat, str := runes "1.5e10" }] ∧
    lexTokens 32 ("+5").toList = [{ typ := .tokInt, str := runes "+5" }] ∧
    lexTokens 32 ("+foo").toList = [{ typ := .tokIdentifier, str := runes "+foo" }] := by
  decide

/-- C7: raw strings terminate only on a quote followed by as many hashes as
were counted at the open.  Input `r#"a"#` yields one String token with text
`a`; input `r#"a"b"#` yields one String token with text `a"b`. -/
theorem C7_raw_strings :
    lexTokens 32 ([114, 35, 34, 97, 34, 35].map Char.ofNat)
      = [{ typ := .tokString, str := [97] }] ∧
    lexTokens 32 ([114, 35, 34, 97, 34, 98, 34, 35].map Char.ofNat)
      = [{ typ := .tokString, str := [97, 34, 98] }] := by
  decide

/-- C8: comments never produce a token.  `// comment` + newline yields just a
Newline token; the nested block comment is consumed with no token at all; a
line comment running to true end-of-input ends cleanly with End (the pull
stream is the zero `tokEOF` token from position 0 on), not an Error. -/
theorem C8_comments :
    lexTokens 64 ("// comment\n").toList = [{ typ := .tokNewline }] ∧
    lexTokens 64 ("/* a /* b */ c */").toList = [] ∧
    lexTokens 64 ("// abc").toList = [] ∧
    pull 64 ("// abc").toList 0 = { typ := .tokEOF } := by
  decide

/-- C9: a leading `-` not followed by a digit is not reclassified: `-foo`
lexes as an Integer token with text `-` followed by an Identifier `foo`. -/
theorem C9_minus_sign :
    lexTokens 32 ("-foo").toList =
      [{ typ := .tokInt, str := [45] }, { typ := .tokIdentifier, str := runes "foo" }] := by
  decide

/-- C2: evaluation of the code at the failing inputs.  For the six-hex-digit
escape `\u` + brace + `10FFFF` + brace inside a quoted string the code leaves
the closing brace (code point 125) in the emitted String text instead of
consuming it; the out-of-range value FFFFFF is substituted (as U+FFFD = 65533
by Go string conversion) with no Error; zero hex digits do yield an Error;
a five-or-fewer-digit escape such as `\u` + brace + `41` + brace is fully
substituted as the claim describes. -/
theorem C2_escape_eval :
    lexTokens 64 ([34, 92, 117, 123, 49, 48, 70, 70, 70, 70, 125, 34].map Char.ofNat)
      = [{ typ := .tokString, str := [1114111, 125] }] ∧
    lexTokens 64 ([34, 92, 117, 123, 70, 70, 70, 70, 70, 70, 125, 34].map Char.ofNat)
      = [{ typ := .tokString, str := [65533, 125] }] ∧
    lexTokens 64 ([34, 92, 117, 123, 125, 34].map Char.ofNat)
      = [{ typ := .tokErr, err := "no hex in \\u escape sequence" }] ∧
    lexTokens 64 ([34, 92, 117, 123, 52, 49, 125, 34].map Char.ofNat)
      = [{ typ := .tokString, str := [65] }] := by
  decide

/-- C1 counterexample: on the input consisting of the single scalar U+0001
the first pull is an Error token, but the next pull is the End token, not
the same Error again — the producer exits after the first Error and the
closed channel yields the zero (`tokEOF`) token from then on. -/
theorem C1_counterexample :
    (pull 8 ([1].map Char.ofNat) 0).typ = .tokErr ∧
    pull 8 ([1].map Char.ofNat) 1 = { typ := .tokEOF } ∧
    pull 8 ([1].map Char.ofNat) 1 ≠ pull 8 ([1].map Char.ofNat) 0 := by
  decide

/-- C3 counterexample: for the input space, backslash, LF, `x` — a whitespace
run containing a line continuation, followed by the non-whitespace scalar
`x` — no Space token is emitted at all before the following scalar is
dispatched: the whole output is a single Identifier token (whose text even
contains the swallowed run). -/
theorem C3_counterexample :
    lexTokens 64 ([32, 92, 10, 120].map Char.ofNat)
      = [{ typ := .tokIdentifier, str := [32, 92, 10, 120] }] ∧
    ∀ t ∈ lexTokens 64 ([32, 92, 10, 120].map Char.ofNat), t.typ ≠ .tokSpace := by
  decide

/-- C5 counterexample: for tab, block comment `/**/`, tab, `x` the lexer
emits only ONE Space token, not two: the Space after the discarded comment
coalesces with the one before it, because a discarded comment does not reset
the last-token-was-space flag. -/
theorem C5_counterexample :
    lexTokens 64 ("\t/**/\tx").toList
      = [{ typ := .tokSpace }, { typ := .tokIdentifier, str := [120] }] ∧
    ((lexTokens 64 ("\t/**/\tx").toList).countP (fun t => t.typ = .tokSpace)) = 1 := by
  decide
